import Mathlib

/-!
Verification development for the HTTPS hello-world client in `src/main.cpp`
(class `HelloHTTPS`).  The definitions below are a shallow embedding of the
code of `HelloHTTPS::startTest` and its helpers: the handshake busy-poll
loop, the request render (`snprintf`) and partial-write loop, and the
response read-and-scan loop over the fixed 600-byte transfer buffer.

Bytes are modelled as `Nat` values (the buffer is a `List Nat` of length
`RECV_BUFFER_SIZE`); results of `mbedtls_ssl_handshake` / `mbedtls_ssl_write`
/ `mbedtls_ssl_read` are modelled as `Int` return codes, with a successful
read additionally carrying the bytes it deposited.
-/

set_option autoImplicit false
set_option maxRecDepth 20000

namespace HelloHTTPS

/-- `RECV_BUFFER_SIZE = 600` from `src/main.cpp` (size of `_buffer`). -/
def RECV_BUFFER_SIZE : Nat := 600

/-- `MBEDTLS_ERR_SSL_WANT_READ = -0x6900`. -/
def MBEDTLS_ERR_SSL_WANT_READ : Int := -26880

/-- `MBEDTLS_ERR_SSL_WANT_WRITE = -0x6880`. -/
def MBEDTLS_ERR_SSL_WANT_WRITE : Int := -26752

/-- ASCII bytes of `HTTPS_SERVER_NAME = "os.mbed.com"`. -/
def HTTPS_SERVER_NAME : List Nat :=
  [111, 115, 46, 109, 98, 101, 100, 46, 99, 111, 109]

/-- ASCII bytes of `HTTPS_OK_STR = "200 OK"`. -/
def HTTPS_OK_STR : List Nat := [50, 48, 48, 32, 79, 75]

/-- ASCII bytes of `HTTPS_HELLO_STR = "Hello world!"`. -/
def HTTPS_HELLO_STR : List Nat :=
  [72, 101, 108, 108, 111, 32, 119, 111, 114, 108, 100, 33]

/-- ASCII bytes of `DRBG_PERS = "mbed TLS helloword client"` (25 characters). -/
def DRBG_PERS : List Nat :=
  [109, 98, 101, 100, 32, 84, 76, 83, 32, 104, 101, 108, 108, 111, 119,
   111, 114, 100, 32, 99, 108, 105, 101, 110, 116]

/-- ASCII bytes of `HTTPS_PATH = "/media/uploads/mbed_official/hello.txt"`. -/
def HTTPS_PATH : List Nat :=
  [47, 109, 101, 100, 105, 97, 47, 117, 112, 108, 111, 97, 100, 115, 47,
   109, 98, 101, 100, 95, 111, 102, 102, 105, 99, 105, 97, 108, 47, 104,
   101, 108, 108, 111, 46, 116, 120, 116]

/-- Size of a `const char *` pointer on the 32-bit Arm mbed target.  The call
`mbedtls_ctr_drbg_seed(&_ctr_drbg, ..., DRBG_PERS, sizeof (DRBG_PERS))` takes
`sizeof` of the pointer variable `DRBG_PERS`, not of the string it points to. -/
def POINTER_SIZE : Nat := 4

/-- The personalization length actually passed to `mbedtls_ctr_drbg_seed` in
`startTest`: `sizeof (DRBG_PERS)` where `DRBG_PERS : const char *`. -/
def seedPersLen : Nat := POINTER_SIZE

/-- `startsWithB needle hay`: `hay` begins with `needle` (byte-wise). -/
def startsWithB : List Nat → List Nat → Bool
  | [], _ => true
  | _ :: _, [] => false
  | n :: ns, h :: hs => (n == h) && startsWithB ns hs

/-- `containsB hay needle = true` iff `strstr(hay, needle) != NULL` for the
C strings whose bytes (up to the terminator) are `hay` and `needle`. -/
def containsB : List Nat → List Nat → Bool
  | [], needle => startsWithB needle []
  | h :: t, needle => startsWithB needle (h :: t) || containsB t needle

/-- The C-string contents of a byte buffer: everything before the first
`0` byte.  `strstr` on `_buffer` scans exactly this region. -/
def cstr (l : List Nat) : List Nat := l.takeWhile (fun b => b != 0)

/-- Store the bytes `bs` into `buf` starting at index `i`
(`memcpy`-style; each byte is a `List.set`). -/
def writeBytes : List Nat → Nat → List Nat → List Nat
  | buf, _, [] => buf
  | buf, i, b :: bs => writeBytes (buf.set i b) (i + 1) bs

/-- The indices `[i, i+1, ..., i+n-1]` touched by an `n`-byte store at `i`. -/
def writeIdxs : Nat → Nat → List Nat
  | _, 0 => []
  | i, n + 1 => i :: writeIdxs (i + 1) n

/-- `GET <path> HTTP/1.1\nHost: os.mbed.com\n\n` — the full (untruncated)
byte rendering of the request, i.e. what
`snprintf(_buffer, ..., "GET %s HTTP/1.1\nHost: %s\n\n", path, HTTPS_SERVER_NAME)`
would produce given unbounded space. -/
def renderRequest (path : List Nat) : List Nat :=
  [71, 69, 84, 32] ++ path ++
  [32, 72, 84, 84, 80, 47, 49, 46, 49, 10, 72, 111, 115, 116, 58, 32] ++
  HTTPS_SERVER_NAME ++ [10, 10]

/-- Effect of `snprintf(buf, n, ...)` rendering the byte string `s`: at most
`n - 1` characters are stored, followed by a terminating `0`. -/
def snprintfWrite (buf : List Nat) (n : Nat) (s : List Nat) : List Nat :=
  (writeBytes buf 0 (s.take (n - 1))).set (min (n - 1) s.length) 0

/-- Return value of `snprintf`: the length the full render would have had,
whether or not it was truncated.  This is what `_bpos` receives. -/
def snprintfRet (s : List Nat) : Nat := s.length

/-- The buffer indices written by `snprintfWrite buf n s`. -/
def snprintfIdxs (n : Nat) (s : List Nat) : List Nat :=
  writeIdxs 0 (min s.length (n - 1)) ++ [min (n - 1) s.length]

/-- One result of `mbedtls_ssl_read`: `ok bs` is a return value
`bs.length ≥ 0` together with the bytes deposited (`ok []` is the
zero-bytes / clean-close result); `code c` is a bare return code
(`WANT_READ`, `WANT_WRITE`, or a fatal negative error). -/
inductive MbedResult where
  | ok : List Nat → MbedResult
  | code : Int → MbedResult
deriving DecidableEq

/-- The `int` return value of the call. -/
def retOf : MbedResult → Int
  | .ok bs => (bs.length : Int)
  | .code c => c

/-- The bytes deposited by the call (none for a bare code). -/
def dataOf : MbedResult → List Nat
  | .ok bs => bs
  | .code _ => []

/-- State of the response-read loop of `startTest`: the transfer buffer
`_buffer`, the fill cursor `offset`, and the flags `_got200` / `_gothello`.
`received` records the bytes deposited so far and `writes` the buffer
indices stored to — bookkeeping that does not influence control flow. -/
structure RState where
  buffer : List Nat
  offset : Nat
  got200 : Bool
  gothello : Bool
  received : List Nat
  writes : List Nat
deriving DecidableEq

/-- State at entry of the read loop: fill cursor `0`, both flags cleared
(they are reset at the top of `startTest`), buffer as rendered. -/
def initR (b : List Nat) : RState :=
  { buffer := b, offset := 0, got200 := false, gothello := false,
    received := [], writes := [] }

/-- One iteration body of the read loop (lines 263–271 of `src/main.cpp`):

    ret = mbedtls_ssl_read(&_ssl, _buffer + offset, sizeof(_buffer) - offset - 1);
    if (ret > 0) offset += ret;
    _buffer[offset] = 0;
    _got200 = _got200 || strstr(_buffer, HTTPS_OK_STR) != NULL;
    _gothello = _gothello || strstr(_buffer, HTTPS_HELLO_STR) != NULL;
-/
def readStep (s : RState) (e : MbedResult) : RState :=
  let bs := dataOf e
  let off1 := if 0 < retOf e then s.offset + bs.length else s.offset
  let buf1 := if 0 < retOf e then writeBytes s.buffer s.offset bs else s.buffer
  let buf2 := buf1.set off1 0
  { buffer := buf2
    offset := off1
    got200 := s.got200 || containsB (cstr buf2) HTTPS_OK_STR
    gothello := s.gothello || containsB (cstr buf2) HTTPS_HELLO_STR
    received := if 0 < retOf e then s.received ++ bs else s.received
    writes := (if 0 < retOf e then s.writes ++ writeIdxs s.offset bs.length
               else s.writes) ++ [off1] }

/-- How the read loop ended: fell through to the status-reporting path
(`finished`), took the `ret < 0` error path (`fatalExit`), or ran out of
supplied results while still looping (`starved`). -/
inductive ReadOutcome where
  | finished : RState → ReadOutcome
  | fatalExit : Int → RState → ReadOutcome
  | starved : RState → ReadOutcome
deriving DecidableEq

/-- The state the loop ended in. -/
def outState : ReadOutcome → RState
  | .finished s => s
  | .fatalExit _ s => s
  | .starved s => s

/-- A full run of the read loop: the `(offset, length)` arguments of each
`mbedtls_ssl_read` call, the state after each iteration, and the outcome. -/
structure ReadRun where
  calls : List (Nat × Nat)
  states : List RState
  out : ReadOutcome
deriving DecidableEq

/-- The guard of the read loop (line 272–274):
`(!_got200 || !_gothello) && (ret > 0 || ret == WANT_READ || ret == WANT_WRITE)`,
evaluated on the flags updated by this iteration. -/
def continueRead (s' : RState) (r : Int) : Bool :=
  (!s'.got200 || !s'.gothello) &&
    (decide (0 < r) || decide (r = MBEDTLS_ERR_SSL_WANT_READ) ||
     decide (r = MBEDTLS_ERR_SSL_WANT_WRITE))

/-- The `do { ... } while` read loop of `startTest`, driven by the list of
per-call results of `mbedtls_ssl_read`. -/
def readLoop : RState → List MbedResult → ReadRun
  | s, [] => { calls := [], states := [], out := .starved s }
  | s, e :: es =>
    let c := (s.offset, RECV_BUFFER_SIZE - s.offset - 1)
    let s' := readStep s e
    if continueRead s' (retOf e) then
      let rest := readLoop s' es
      { calls := c :: rest.calls, states := s' :: rest.states, out := rest.out }
    else
      { calls := [c], states := [s'],
        out := if retOf e < 0 then .fatalExit (retOf e) s' else .finished s' }

/-- Transport contract for read results: each deposit fits in the space the
call requested (`sizeof(_buffer) - offset - 1` bytes), tracking the running
fill cursor. -/
def recvBounded : Nat → List MbedResult → Bool
  | _, [] => true
  | off, e :: es =>
    decide ((dataOf e).length ≤ RECV_BUFFER_SIZE - 1 - off) &&
      recvBounded (off + (dataOf e).length) es

/-- How the write loop ended. -/
inductive WriteOutcome where
  | done : Nat → WriteOutcome
  | failed : Int → Nat → WriteOutcome
  | starved : Nat → WriteOutcome
deriving DecidableEq

/-- The `do { ... } while` write loop of `startTest` (lines 226–234):

    ret = mbedtls_ssl_write(&_ssl, _buffer + offset, _bpos - offset);
    if (ret > 0) offset += ret;
    while (offset < _bpos && (ret > 0 || ret == WANT_READ || ret == WANT_WRITE));

Returns the `(offset, length)` arguments of every `mbedtls_ssl_write` call
and the outcome (`done` = fell through with `ret ≥ 0`, `failed` = `ret < 0`). -/
def writeLoop : Nat → Nat → List Int → List (Nat × Nat) × WriteOutcome
  | off, _, [] => ([], .starved off)
  | off, bpos, r :: rs =>
    let c := (off, bpos - off)
    let off' := if 0 < r then off + r.toNat else off
    if off' < bpos ∧ (0 < r ∨ r = MBEDTLS_ERR_SSL_WANT_READ ∨
        r = MBEDTLS_ERR_SSL_WANT_WRITE) then
      let rest := writeLoop off' bpos rs
      (c :: rest.1, rest.2)
    else
      ([c], if r < 0 then .failed r off' else .done off')

/-- Write-event contract of claim C2: every result is either a would-block
sentinel or a positive byte count. -/
def allSendable : List Int → Bool
  | [] => true
  | r :: rs =>
    (decide (0 < r) || decide (r = MBEDTLS_ERR_SSL_WANT_READ) ||
     decide (r = MBEDTLS_ERR_SSL_WANT_WRITE)) && allSendable rs

/-- Total of the positive results in a list of write results. -/
def posTotal : List Int → Int
  | [] => 0
  | r :: rs => (if 0 < r then r else 0) + posTotal rs

/-- Externally visible operations of `startTest` on the TLS/socket layer. -/
inductive Action where
  | hs : Action
  | wr : Nat → Nat → Action
  | rd : Nat → Nat → Action
  | close : Action
deriving DecidableEq

/-- The handshake busy-poll loop (lines 212–215):

    do { ret = mbedtls_ssl_handshake(&_ssl); }
    while (ret != 0 && (ret == WANT_READ || ret == WANT_WRITE));

Returns one `Action.hs` per call and `some ret` for the exit value
(`none` if the supplied results ran out while still looping). -/
def hsLoop : List Int → List Action × Option Int
  | [] => ([], none)
  | r :: rs =>
    if r ≠ 0 ∧ (r = MBEDTLS_ERR_SSL_WANT_READ ∨ r = MBEDTLS_ERR_SSL_WANT_WRITE)
    then
      let rest := hsLoop rs
      (Action.hs :: rest.1, rest.2)
    else ([Action.hs], some r)

/-- Final result reported by the modelled `startTest`. -/
inductive TestResult where
  | hsStarved : TestResult
  | hsFailed : Int → TestResult
  | wrStarved : Nat → TestResult
  | wrFailed : Int → TestResult
  | rdStarved : TestResult
  | rdFailed : Int → TestResult
  | done : Bool → Bool → Nat → TestResult
deriving DecidableEq

/-- Write calls as actions. -/
def wrCallActions (cs : List (Nat × Nat)) : List Action :=
  cs.map (fun c => Action.wr c.1 c.2)

/-- Read calls as actions. -/
def rdCallActions (cs : List (Nat × Nat)) : List Action :=
  cs.map (fun c => Action.rd c.1 c.2)

/-- The part of `startTest` after a completed handshake: render the request
with `snprintf`, run the write loop, then the read loop, closing the socket
on the error paths and before reporting status (lines 222–295). -/
def afterHandshake (buf0 path : List Nat) (wrE : List Int)
    (rdE : List MbedResult) : List Action × TestResult :=
  let req := renderRequest path
  let buf1 := snprintfWrite buf0 (RECV_BUFFER_SIZE - 1) req
  let bpos := snprintfRet req
  match writeLoop 0 bpos wrE with
  | (ws, WriteOutcome.starved off) => (wrCallActions ws, TestResult.wrStarved off)
  | (ws, WriteOutcome.failed r _) =>
      (wrCallActions ws ++ [Action.close], TestResult.wrFailed r)
  | (ws, WriteOutcome.done _) =>
      let run := readLoop (initR buf1) rdE
      match run.out with
      | ReadOutcome.starved _ =>
          (wrCallActions ws ++ rdCallActions run.calls, TestResult.rdStarved)
      | ReadOutcome.fatalExit r _ =>
          (wrCallActions ws ++ rdCallActions run.calls ++ [Action.close],
           TestResult.rdFailed r)
      | ReadOutcome.finished sf =>
          (wrCallActions ws ++ rdCallActions run.calls ++ [Action.close],
           TestResult.done sf.got200 sf.gothello sf.offset)

/-- `startTest` from the handshake loop on, driven by per-call results for
handshake (`hsE`), write (`wrE`) and read (`rdE`).  `buf0` is the
indeterminate initial content of `_buffer` (the constructor stores a `0`
at index `RECV_BUFFER_SIZE - 1`). -/
def startTest (buf0 path : List Nat) (hsE wrE : List Int)
    (rdE : List MbedResult) : List Action × TestResult :=
  let b := buf0.set (RECV_BUFFER_SIZE - 1) 0
  match hsLoop hsE with
  | (as, none) => (as, TestResult.hsStarved)
  | (as, some r) =>
    if r < 0 then (as ++ [Action.close], TestResult.hsFailed r)
    else
      let rest := afterHandshake b path wrE rdE
      (as ++ rest.1, rest.2)

/-- `scrub s` forgets the buffer contents of a state, keeping every
observable component (cursor, flags, received bytes, written indices). -/
def scrub (s : RState) : RState := { s with buffer := [] }

/-- `scrubOut` applies `scrub` to the state carried by an outcome. -/
def scrubOut : ReadOutcome → ReadOutcome
  | .finished s => .finished (scrub s)
  | .fatalExit r s => .fatalExit r (scrub s)
  | .starved s => .starved (scrub s)

/-- Invariant of the read loop, satisfied after every iteration: the buffer
is exactly the received bytes, a `0` terminator, and untouched residue; the
fill cursor sits on the terminator; and each flag equals the scan result on
the accumulated received text. -/
def GoodR (s : RState) : Prop :=
  s.buffer.length = RECV_BUFFER_SIZE ∧
  s.offset = s.received.length ∧
  s.buffer.take s.offset = s.received ∧
  s.buffer.get? s.offset = some 0 ∧
  s.got200 = containsB (cstr s.received) HTTPS_OK_STR ∧
  s.gothello = containsB (cstr s.received) HTTPS_HELLO_STR

instance : DecidablePred GoodR := fun s => by
  unfold GoodR; infer_instance

/-- All recorded buffer stores are in bounds. -/
def writesOk (s : RState) : Prop := ∀ i ∈ s.writes, i < RECV_BUFFER_SIZE

instance : DecidablePred writesOk := fun s => by
  unfold writesOk; infer_instance

/-! ### List helper lemmas -/

theorem writeIdxs_mem {n i j : Nat} (h : j ∈ writeIdxs i n) : i ≤ j ∧ j < i + n := by
  induction n generalizing i with
  | zero => simp [writeIdxs] at h
  | succ n ih =>
    simp only [writeIdxs, List.mem_cons] at h
    rcases h with rfl | h
    · omega
    · have := ih h
      omega

theorem writeBytes_length (bs : List Nat) : ∀ (buf : List Nat) (i : Nat),
    (writeBytes buf i bs).length = buf.length := by
  induction bs with
  | nil => intro buf i; rfl
  | cons b bs ih =>
    intro buf i
    show (writeBytes (buf.set i b) (i + 1) bs).length = buf.length
    rw [ih, List.length_set]

theorem set_cons_add_one (a : Nat) (l : List Nat) (n v : Nat) :
    (a :: l).set (n + 1) v = a :: l.set n v := rfl

theorem set_append_add (l r : List Nat) (k v : Nat) :
    (l ++ r).set (l.length + k) v = l ++ r.set k v := by
  induction l with
  | nil => simp
  | cons a l ih =>
    have h1 : (a :: l).length + k = (l.length + k) + 1 := by
      simp [List.length_cons]; omega
    rw [List.cons_append, h1, set_cons_add_one, ih, List.cons_append]

theorem writeBytes_append_add (bs : List Nat) : ∀ (l r : List Nat) (k : Nat),
    writeBytes (l ++ r) (l.length + k) bs = l ++ writeBytes r k bs := by
  induction bs with
  | nil => intros; rfl
  | cons b bs ih =>
    intro l r k
    show writeBytes ((l ++ r).set (l.length + k) b) (l.length + k + 1) bs =
      l ++ writeBytes (r.set k b) (k + 1) bs
    rw [set_append_add]
    have h1 : l.length + k + 1 = l.length + (k + 1) := by omega
    rw [h1, ih]

theorem writeBytes_from_zero (bs : List Nat) : ∀ (r : List Nat),
    bs.length ≤ r.length → writeBytes r 0 bs = bs ++ r.drop bs.length := by
  induction bs with
  | nil => intro r _; simp [writeBytes]
  | cons b bs ih =>
    intro r h
    match r with
    | [] => simp at h
    | x :: r' =>
      show writeBytes ((x :: r').set 0 b) 1 bs = (b :: bs) ++ (x :: r').drop (bs.length + 1)
      have h1 : (x :: r').set 0 b = b :: r' := rfl
      have h2 : writeBytes (b :: r') 1 bs = b :: writeBytes r' 0 bs := by
        have := writeBytes_append_add bs [b] r' 0
        simpa using this
      rw [h1, h2, ih r' (by simpa using h)]
      rfl

theorem cstr_cons_ne (x : Nat) (t : List Nat) (h : x ≠ 0) :
    cstr (x :: t) = x :: cstr t := by
  simp [cstr, List.takeWhile_cons, h]

theorem cstr_cons_zero (t : List Nat) : cstr (0 :: t) = [] := by
  simp [cstr, List.takeWhile_cons]

theorem cstr_append_zero (a b : List Nat) : cstr (a ++ 0 :: b) = cstr a := by
  induction a with
  | nil => simp [cstr_cons_zero, cstr]
  | cons x a ih =>
    by_cases hx : x = 0
    · subst hx; rw [List.cons_append, cstr_cons_zero, cstr_cons_zero]
    · rw [List.cons_append, cstr_cons_ne _ _ hx, cstr_cons_ne _ _ hx, ih]

theorem startsWithB_extend (n : List Nat) : ∀ (h t : List Nat),
    startsWithB n h = true → startsWithB n (h ++ t) = true := by
  induction n with
  | nil => intros; rfl
  | cons a n ih =>
    intro h t hs
    match h with
    | [] => simp [startsWithB] at hs
    | x :: h' =>
      simp only [startsWithB, Bool.and_eq_true, beq_iff_eq] at hs
      simp only [List.cons_append, startsWithB, Bool.and_eq_true, beq_iff_eq]
      exact ⟨hs.1, ih h' t hs.2⟩

theorem containsB_nil_needle : ∀ (hay : List Nat), containsB hay [] = true := by
  intro hay
  cases hay with
  | nil => rfl
  | cons x t => simp [containsB, startsWithB]

theorem containsB_extend (n : List Nat) : ∀ (h t : List Nat),
    containsB h n = true → containsB (h ++ t) n = true := by
  intro h
  induction h with
  | nil =>
    intro t hc
    match n, hc with
    | [], _ => simpa using containsB_nil_needle t
    | a :: n', hc => simp [containsB, startsWithB] at hc
  | cons x h' ih =>
    intro t hc
    simp only [containsB, Bool.or_eq_true] at hc
    simp only [List.cons_append, containsB, Bool.or_eq_true]
    rcases hc with hc | hc
    · left
      have := startsWithB_extend n (x :: h') t hc
      simpa using this
    · right; exact ih t hc

theorem cstr_append (l u : List Nat) : ∃ w, cstr (l ++ u) = cstr l ++ w := by
  induction l with
  | nil => exact ⟨cstr u, by simp [cstr]⟩
  | cons x l ih =>
    by_cases hx : x = 0
    · subst hx
      exact ⟨[], by rw [List.cons_append, cstr_cons_zero, cstr_cons_zero]; rfl⟩
    · obtain ⟨w, hw⟩ := ih
      refine ⟨w, ?_⟩
      rw [List.cons_append, cstr_cons_ne _ _ hx, cstr_cons_ne _ _ hx, hw]
      rfl

theorem containsB_cstr_extend (l u n : List Nat)
    (hc : containsB (cstr l) n = true) : containsB (cstr (l ++ u)) n = true := by
  obtain ⟨w, hw⟩ := cstr_append l u
  rw [hw]
  exact containsB_extend n (cstr l) w hc

theorem get?_append_mid (l : List Nat) (v : Nat) (d : List Nat) :
    (l ++ v :: d).get? l.length = some v := by
  induction l with
  | nil => rfl
  | cons a l ih => simpa using ih

theorem take_append_exact (l d : List Nat) : (l ++ d).take l.length = l := by
  induction l with
  | nil => rfl
  | cons a l ih => simp [ih]

theorem buffer_decomp : ∀ (b : List Nat) (n : Nat) (r : List Nat),
    b.take n = r → b.get? n = some 0 → b = r ++ 0 :: b.drop (n + 1) := by
  intro b
  induction b with
  | nil => intro n r _ hg; cases n <;> simp [List.get?] at hg
  | cons x b ih =>
    intro n r ht hg
    cases n with
    | zero =>
      have hx : x = 0 := by simpa using hg
      have hr : r = [] := by simpa using ht.symm
      subst hx; subst hr; simp
    | succ n =>
      have hg' : b.get? n = some 0 := by simpa using hg
      cases r with
      | nil => simp at ht
      | cons y r' =>
        have hyr : x = y ∧ b.take n = r' := by simpa using ht
        obtain ⟨rfl, ht'⟩ := hyr
        have hb := ih n r' ht' hg'
        show x :: b = x :: r' ++ 0 :: (x :: b).drop (n + 1 + 1)
        rw [List.drop_succ_cons]
        rw [List.cons_append]
        exact congrArg (x :: ·) hb

/-! ### Read-step lemmas -/

/-- Weak invariant holding already at loop entry (`initR`), before the first
terminator has been stored: buffer content up to the cursor is exactly the
received bytes and each flag is the scan result of the received text. -/
def PreR (s : RState) : Prop :=
  s.offset = s.received.length ∧
  s.buffer.length = RECV_BUFFER_SIZE ∧
  s.buffer.take s.offset = s.received ∧
  s.got200 = containsB (cstr s.received) HTTPS_OK_STR ∧
  s.gothello = containsB (cstr s.received) HTTPS_HELLO_STR ∧
  s.offset ≤ RECV_BUFFER_SIZE - 1

theorem goodR_preR (s : RState) (hg : GoodR s) : PreR s := by
  obtain ⟨hlen, hoff, htake, hget, h200, hh⟩ := hg
  refine ⟨hoff, hlen, htake, h200, hh, ?_⟩
  have hlt := List.get?_eq_some.mp hget
  obtain ⟨hlt', _⟩ := hlt
  rw [hlen] at hlt'
  omega

theorem initR_preR (b : List Nat) (hb : b.length = RECV_BUFFER_SIZE) :
    PreR (initR b) := by
  refine ⟨rfl, hb, rfl, rfl, rfl, Nat.zero_le _⟩

theorem dataOf_eq_nil (e : MbedResult) (h : ¬ 0 < retOf e) : dataOf e = [] := by
  cases e with
  | ok bs =>
    cases bs with
    | nil => rfl
    | cons b bs' =>
      exfalso
      apply h
      show (0 : Int) < ((b :: bs').length : Int)
      exact_mod_cast Nat.succ_pos bs'.length
  | code c => rfl

theorem readStep_offset (s : RState) (e : MbedResult) :
    (readStep s e).offset = s.offset + (dataOf e).length := by
  by_cases hpos : 0 < retOf e
  · simp [readStep, hpos]
  · simp [readStep, hpos, dataOf_eq_nil e hpos]

theorem readStep_received (s : RState) (e : MbedResult) :
    (readStep s e).received = s.received ++ dataOf e := by
  by_cases hpos : 0 < retOf e
  · simp [readStep, hpos]
  · simp [readStep, hpos, dataOf_eq_nil e hpos]

theorem readStep_mono200 (s : RState) (e : MbedResult) (h : s.got200 = true) :
    (readStep s e).got200 = true := by
  simp [readStep, h]

theorem readStep_monohello (s : RState) (e : MbedResult) (h : s.gothello = true) :
    (readStep s e).gothello = true := by
  simp [readStep, h]

theorem readStep_pre (s : RState) (e : MbedResult) (hp : PreR s)
    (hb : (dataOf e).length ≤ RECV_BUFFER_SIZE - 1 - s.offset) :
    GoodR (readStep s e) ∧
    (readStep s e).got200 =
      (s.got200 || containsB (cstr (s.received ++ dataOf e)) HTTPS_OK_STR) ∧
    (readStep s e).gothello =
      (s.gothello || containsB (cstr (s.received ++ dataOf e)) HTTPS_HELLO_STR) := by
  obtain ⟨hoff, hlen, htake, h200, hh, hle⟩ := hp
  have hrest : s.buffer = s.received ++ s.buffer.drop s.offset := by
    conv_lhs => rw [← List.take_append_drop s.offset s.buffer]
    rw [htake]
  have hrestlen : (s.buffer.drop s.offset).length = RECV_BUFFER_SIZE - s.offset := by
    rw [List.length_drop, hlen]
  simp only [RECV_BUFFER_SIZE] at hb hle hrestlen
  by_cases hpos : 0 < retOf e
  · -- progress branch: store the data and the terminator after it
    have hstep : readStep s e =
        { buffer := (writeBytes s.buffer s.offset (dataOf e)).set
            (s.offset + (dataOf e).length) 0,
          offset := s.offset + (dataOf e).length,
          got200 := s.got200 || containsB (cstr ((writeBytes s.buffer s.offset
            (dataOf e)).set (s.offset + (dataOf e).length) 0)) HTTPS_OK_STR,
          gothello := s.gothello || containsB (cstr ((writeBytes s.buffer s.offset
            (dataOf e)).set (s.offset + (dataOf e).length) 0)) HTTPS_HELLO_STR,
          received := s.received ++ dataOf e,
          writes := (s.writes ++ writeIdxs s.offset (dataOf e).length) ++
            [s.offset + (dataOf e).length] } := by
      simp [readStep, hpos]
    have hbuf1 : writeBytes s.buffer s.offset (dataOf e) =
        s.received ++ ((dataOf e) ++ (s.buffer.drop s.offset).drop (dataOf e).length) := by
      have e1 : s.offset = s.received.length + 0 := by omega
      calc writeBytes s.buffer s.offset (dataOf e)
          = writeBytes (s.received ++ s.buffer.drop s.offset)
              (s.received.length + 0) (dataOf e) := by rw [← e1, ← hrest]
        _ = s.received ++ writeBytes (s.buffer.drop s.offset) 0 (dataOf e) :=
            writeBytes_append_add (dataOf e) s.received (s.buffer.drop s.offset) 0
        _ = s.received ++ ((dataOf e) ++ (s.buffer.drop s.offset).drop (dataOf e).length) := by
            rw [writeBytes_from_zero (dataOf e) _ (by rw [hrestlen]; omega)]
    have hdlen : ((s.buffer.drop s.offset).drop (dataOf e).length).length =
        600 - s.offset - (dataOf e).length := by
      rw [List.length_drop, hrestlen]
    have hdne : (s.buffer.drop s.offset).drop (dataOf e).length ≠ [] := by
      intro h0
      rw [h0] at hdlen
      simp at hdlen
      omega
    obtain ⟨d0, d1, hdd⟩ := List.exists_cons_of_ne_nil hdne
    have hlapp : s.offset + (dataOf e).length = (s.received ++ dataOf e).length + 0 := by
      rw [List.length_append]
      omega
    have hbuf2 : (writeBytes s.buffer s.offset (dataOf e)).set
        (s.offset + (dataOf e).length) 0 = (s.received ++ dataOf e) ++ 0 :: d1 := by
      rw [hbuf1, hdd, ← List.append_assoc, hlapp, set_append_add]
      rfl
    have hd1len : d1.length = 600 - s.offset - (dataOf e).length - 1 := by
      have : (d0 :: d1).length = 600 - s.offset - (dataOf e).length := by
        rw [← hdd]; exact hdlen
      simp at this
      omega
    have hflag200 : (s.got200 ||
        containsB (cstr ((s.received ++ dataOf e) ++ 0 :: d1)) HTTPS_OK_STR) =
        containsB (cstr (s.received ++ dataOf e)) HTTPS_OK_STR := by
      rw [cstr_append_zero, h200]
      cases hc : containsB (cstr s.received) HTTPS_OK_STR with
      | false => simp
      | true => simp [containsB_cstr_extend s.received (dataOf e) _ hc]
    have hflaghello : (s.gothello ||
        containsB (cstr ((s.received ++ dataOf e) ++ 0 :: d1)) HTTPS_HELLO_STR) =
        containsB (cstr (s.received ++ dataOf e)) HTTPS_HELLO_STR := by
      rw [cstr_append_zero, hh]
      cases hc : containsB (cstr s.received) HTTPS_HELLO_STR with
      | false => simp
      | true => simp [containsB_cstr_extend s.received (dataOf e) _ hc]
    refine ⟨⟨?_, ?_, ?_, ?_, ?_, ?_⟩, ?_, ?_⟩
    · rw [hstep]
      show ((writeBytes s.buffer s.offset (dataOf e)).set
        (s.offset + (dataOf e).length) 0).length = RECV_BUFFER_SIZE
      rw [hbuf2]
      simp only [RECV_BUFFER_SIZE]
      simp [List.length_append]
      omega
    · rw [hstep]
      show s.offset + (dataOf e).length = (s.received ++ dataOf e).length
      rw [List.length_append]
      omega
    · rw [hstep]
      show ((writeBytes s.buffer s.offset (dataOf e)).set
          (s.offset + (dataOf e).length) 0).take (s.offset + (dataOf e).length) =
        s.received ++ dataOf e
      rw [hbuf2]
      have : s.offset + (dataOf e).length = (s.received ++ dataOf e).length := by
        rw [List.length_append]; omega
      rw [this, take_append_exact]
    · rw [hstep]
      show ((writeBytes s.buffer s.offset (dataOf e)).set
          (s.offset + (dataOf e).length) 0).get? (s.offset + (dataOf e).length) =
        some 0
      rw [hbuf2]
      have : s.offset + (dataOf e).length = (s.received ++ dataOf e).length := by
        rw [List.length_append]; omega
      rw [this, get?_append_mid]
    · rw [hstep]
      show (s.got200 || containsB (cstr ((writeBytes s.buffer s.offset
          (dataOf e)).set (s.offset + (dataOf e).length) 0)) HTTPS_OK_STR) =
        containsB (cstr (s.received ++ dataOf e)) HTTPS_OK_STR
      rw [hbuf2, hflag200]
    · rw [hstep]
      show (s.gothello || containsB (cstr ((writeBytes s.buffer s.offset
          (dataOf e)).set (s.offset + (dataOf e).length) 0)) HTTPS_HELLO_STR) =
        containsB (cstr (s.received ++ dataOf e)) HTTPS_HELLO_STR
      rw [hbuf2, hflaghello]
    · rw [hstep]
      show (s.got200 || containsB (cstr ((writeBytes s.buffer s.offset
          (dataOf e)).set (s.offset + (dataOf e).length) 0)) HTTPS_OK_STR) =
        (s.got200 || containsB (cstr (s.received ++ dataOf e)) HTTPS_OK_STR)
      rw [hbuf2, cstr_append_zero]
    · rw [hstep]
      show (s.gothello || containsB (cstr ((writeBytes s.buffer s.offset
          (dataOf e)).set (s.offset + (dataOf e).length) 0)) HTTPS_HELLO_STR) =
        (s.gothello || containsB (cstr (s.received ++ dataOf e)) HTTPS_HELLO_STR)
      rw [hbuf2, cstr_append_zero]
  · -- no-progress branch: only the terminator is (re)stored
    have hnil : dataOf e = [] := dataOf_eq_nil e hpos
    have hstep : readStep s e =
        { buffer := s.buffer.set s.offset 0,
          offset := s.offset,
          got200 := s.got200 ||
            containsB (cstr (s.buffer.set s.offset 0)) HTTPS_OK_STR,
          gothello := s.gothello ||
            containsB (cstr (s.buffer.set s.offset 0)) HTTPS_HELLO_STR,
          received := s.received,
          writes := s.writes ++ [s.offset] } := by
      simp [readStep, hpos]
    have hrne : s.buffer.drop s.offset ≠ [] := by
      intro h0
      rw [h0] at hrestlen
      simp at hrestlen
      omega
    obtain ⟨r0, r1, hrr⟩ := List.exists_cons_of_ne_nil hrne
    have hbuf2 : s.buffer.set s.offset 0 = s.received ++ 0 :: r1 := by
      conv_lhs => rw [hrest, hrr]
      have h0 : s.offset = s.received.length + 0 := by omega
      rw [h0, set_append_add]
      rfl
    have hr1len : r1.length = 600 - s.offset - 1 := by
      have : (r0 :: r1).length = 600 - s.offset := by
        rw [← hrr]; exact hrestlen
      simp at this
      omega
    have hflag200 : (s.got200 ||
        containsB (cstr (s.received ++ 0 :: r1)) HTTPS_OK_STR) =
        containsB (cstr s.received) HTTPS_OK_STR := by
      rw [cstr_append_zero, h200, Bool.or_self]
    have hflaghello : (s.gothello ||
        containsB (cstr (s.received ++ 0 :: r1)) HTTPS_HELLO_STR) =
        containsB (cstr s.received) HTTPS_HELLO_STR := by
      rw [cstr_append_zero, hh, Bool.or_self]
    refine ⟨⟨?_, ?_, ?_, ?_, ?_, ?_⟩, ?_, ?_⟩
    · rw [hstep]
      show (s.buffer.set s.offset 0).length = RECV_BUFFER_SIZE
      rw [List.length_set, hlen]
    · rw [hstep]
      exact hoff
    · rw [hstep]
      show (s.buffer.set s.offset 0).take s.offset = s.received
      rw [hbuf2, hoff, take_append_exact]
    · rw [hstep]
      show (s.buffer.set s.offset 0).get? s.offset = some 0
      rw [hbuf2, hoff, get?_append_mid]
    · rw [hstep]
      show (s.got200 || containsB (cstr (s.buffer.set s.offset 0)) HTTPS_OK_STR) =
        containsB (cstr s.received) HTTPS_OK_STR
      rw [hbuf2, hflag200]
    · rw [hstep]
      show (s.gothello || containsB (cstr (s.buffer.set s.offset 0)) HTTPS_HELLO_STR) =
        containsB (cstr s.received) HTTPS_HELLO_STR
      rw [hbuf2, hflaghello]
    · rw [hstep]
      show (s.got200 || containsB (cstr (s.buffer.set s.offset 0)) HTTPS_OK_STR) =
        (s.got200 || containsB (cstr (s.received ++ dataOf e)) HTTPS_OK_STR)
      rw [hbuf2, cstr_append_zero, hnil, List.append_nil]
    · rw [hstep]
      show (s.gothello || containsB (cstr (s.buffer.set s.offset 0)) HTTPS_HELLO_STR) =
        (s.gothello || containsB (cstr (s.received ++ dataOf e)) HTTPS_HELLO_STR)
      rw [hbuf2, cstr_append_zero, hnil, List.append_nil]

theorem readStep_writesOk (s : RState) (e : MbedResult) (hw : writesOk s)
    (hle : s.offset + (dataOf e).length < RECV_BUFFER_SIZE) :
    writesOk (readStep s e) := by
  intro i hi
  by_cases hpos : 0 < retOf e
  · simp only [readStep, hpos, if_true, List.mem_append, List.mem_singleton] at hi
    rcases hi with (hi | hi) | hi
    · exact hw i hi
    · have := writeIdxs_mem hi
      omega
    · omega
  · have hnil : dataOf e = [] := dataOf_eq_nil e hpos
    rw [hnil] at hle
    simp only [readStep, hpos, if_false, List.mem_append, List.mem_singleton] at hi
    rcases hi with hi | hi
    · exact hw i hi
    · omega

/-! ### Read-loop lemmas -/

theorem readLoop_cons_continue (s : RState) (e : MbedResult) (es : List MbedResult)
    (hc : continueRead (readStep s e) (retOf e) = true) :
    readLoop s (e :: es) =
      { calls := (s.offset, RECV_BUFFER_SIZE - s.offset - 1) ::
          (readLoop (readStep s e) es).calls,
        states := readStep s e :: (readLoop (readStep s e) es).states,
        out := (readLoop (readStep s e) es).out } := by
  simp [readLoop, hc]

theorem readLoop_cons_stop (s : RState) (e : MbedResult) (es : List MbedResult)
    (hc : ¬ continueRead (readStep s e) (retOf e) = true) :
    readLoop s (e :: es) =
      { calls := [(s.offset, RECV_BUFFER_SIZE - s.offset - 1)],
        states := [readStep s e],
        out := if retOf e < 0 then ReadOutcome.fatalExit (retOf e) (readStep s e)
               else ReadOutcome.finished (readStep s e) } := by
  simp [readLoop, hc]

theorem recvBounded_cons (off : Nat) (e : MbedResult) (es : List MbedResult)
    (h : recvBounded off (e :: es) = true) :
    (dataOf e).length ≤ RECV_BUFFER_SIZE - 1 - off ∧
      recvBounded (off + (dataOf e).length) es = true := by
  simp only [recvBounded, Bool.and_eq_true, decide_eq_true_eq] at h
  exact h

theorem readLoop_inv (evs : List MbedResult) : ∀ (s : RState),
    GoodR s → writesOk s → recvBounded s.offset evs = true →
    (∀ t ∈ (readLoop s evs).states, GoodR t ∧ writesOk t) ∧
    GoodR (outState (readLoop s evs).out) ∧
    writesOk (outState (readLoop s evs).out) := by
  induction evs with
  | nil =>
    intro s hg hw _
    refine ⟨?_, ?_, ?_⟩
    · intro t ht; simp [readLoop] at ht
    · simpa [readLoop, outState] using hg
    · simpa [readLoop, outState] using hw
  | cons e es ih =>
    intro s hg hw hb
    obtain ⟨hb1, hb2⟩ := recvBounded_cons s.offset e es hb
    have hp := goodR_preR s hg
    have hstep := readStep_pre s e hp hb1
    have hg' : GoodR (readStep s e) := hstep.1
    have hw' : writesOk (readStep s e) := by
      apply readStep_writesOk s e hw
      have hle := hp.2.2.2.2.2
      simp only [RECV_BUFFER_SIZE] at hle hb1 ⊢
      omega
    have hbtail : recvBounded (readStep s e).offset es = true := by
      rw [readStep_offset]; exact hb2
    by_cases hc : continueRead (readStep s e) (retOf e) = true
    · rw [readLoop_cons_continue s e es hc]
      obtain ⟨ihm, iho1, iho2⟩ := ih (readStep s e) hg' hw' hbtail
      refine ⟨?_, iho1, iho2⟩
      intro t ht
      rcases List.mem_cons.mp ht with rfl | ht
      · exact ⟨hg', hw'⟩
      · exact ihm t ht
    · rw [readLoop_cons_stop s e es hc]
      refine ⟨?_, ?_, ?_⟩
      · intro t ht
        rcases List.mem_singleton.mp ht with rfl
        exact ⟨hg', hw'⟩
      · by_cases hr : retOf e < 0 <;> simp [outState, hr, hg']
      · by_cases hr : retOf e < 0 <;> simp [outState, hr, hw']

theorem readLoop_mono200 (evs : List MbedResult) : ∀ (s : RState),
    s.got200 = true →
    (∀ t ∈ (readLoop s evs).states, t.got200 = true) ∧
    (outState (readLoop s evs).out).got200 = true := by
  induction evs with
  | nil =>
    intro s h
    exact ⟨fun t ht => by simp [readLoop] at ht, by simpa [readLoop, outState] using h⟩
  | cons e es ih =>
    intro s h
    have h' := readStep_mono200 s e h
    by_cases hc : continueRead (readStep s e) (retOf e) = true
    · rw [readLoop_cons_continue s e es hc]
      obtain ⟨ihm, iho⟩ := ih (readStep s e) h'
      refine ⟨?_, iho⟩
      intro t ht
      rcases List.mem_cons.mp ht with rfl | ht
      · exact h'
      · exact ihm t ht
    · rw [readLoop_cons_stop s e es hc]
      refine ⟨?_, ?_⟩
      · intro t ht
        rcases List.mem_singleton.mp ht with rfl
        exact h'
      · by_cases hr : retOf e < 0 <;> simp [outState, hr, h']

theorem readLoop_monohello (evs : List MbedResult) : ∀ (s : RState),
    s.gothello = true →
    (∀ t ∈ (readLoop s evs).states, t.gothello = true) ∧
    (outState (readLoop s evs).out).gothello = true := by
  induction evs with
  | nil =>
    intro s h
    exact ⟨fun t ht => by simp [readLoop] at ht, by simpa [readLoop, outState] using h⟩
  | cons e es ih =>
    intro s h
    have h' := readStep_monohello s e h
    by_cases hc : continueRead (readStep s e) (retOf e) = true
    · rw [readLoop_cons_continue s e es hc]
      obtain ⟨ihm, iho⟩ := ih (readStep s e) h'
      refine ⟨?_, iho⟩
      intro t ht
      rcases List.mem_cons.mp ht with rfl | ht
      · exact h'
      · exact ihm t ht
    · rw [readLoop_cons_stop s e es hc]
      refine ⟨?_, ?_⟩
      · intro t ht
        rcases List.mem_singleton.mp ht with rfl
        exact h'
      · by_cases hr : retOf e < 0 <;> simp [outState, hr, h']

theorem readLoop_get_mono (evs : List MbedResult) : ∀ (s : RState) (i j : Nat),
    i ≤ j → ∀ (ti tj : RState),
    (readLoop s evs).states.get? i = some ti →
    (readLoop s evs).states.get? j = some tj →
    (ti.got200 = true → tj.got200 = true ∧
      (outState (readLoop s evs).out).got200 = true) ∧
    (ti.gothello = true → tj.gothello = true ∧
      (outState (readLoop s evs).out).gothello = true) := by
  induction evs with
  | nil => intro s i j hij ti tj hti htj; simp [readLoop] at hti
  | cons e es ih =>
    intro s i j hij ti tj hti htj
    by_cases hc : continueRead (readStep s e) (retOf e) = true
    · rw [readLoop_cons_continue s e es hc] at hti htj ⊢
      dsimp only at hti htj ⊢
      cases i with
      | zero =>
        have hti' : ti = readStep s e := by
          have := hti
          simp at this
          exact this.symm
        subst hti'
        cases j with
        | zero =>
          have htj' : tj = readStep s e := by
            have := htj
            simp at this
            exact this.symm
          subst htj'
          exact ⟨fun h => ⟨h, (readLoop_mono200 es _ h).2⟩,
                 fun h => ⟨h, (readLoop_monohello es _ h).2⟩⟩
        | succ j' =>
          have htj' : (readLoop (readStep s e) es).states.get? j' = some tj := by
            simpa using htj
          have hmem : tj ∈ (readLoop (readStep s e) es).states := List.get?_mem htj'
          exact ⟨fun h => ⟨(readLoop_mono200 es _ h).1 tj hmem,
                           (readLoop_mono200 es _ h).2⟩,
                 fun h => ⟨(readLoop_monohello es _ h).1 tj hmem,
                           (readLoop_monohello es _ h).2⟩⟩
      | succ i' =>
        cases j with
        | zero => omega
        | succ j' =>
          have hti' : (readLoop (readStep s e) es).states.get? i' = some ti := by
            simpa using hti
          have htj' : (readLoop (readStep s e) es).states.get? j' = some tj := by
            simpa using htj
          exact ih (readStep s e) i' j' (by omega) ti tj hti' htj'
    · rw [readLoop_cons_stop s e es hc] at hti htj ⊢
      dsimp only at hti htj ⊢
      have hout : outState (if retOf e < 0 then
          ReadOutcome.fatalExit (retOf e) (readStep s e)
          else ReadOutcome.finished (readStep s e)) = readStep s e := by
        by_cases hr : retOf e < 0 <;> simp [outState, hr]
      cases i with
      | zero =>
        have hti' : ti = readStep s e := by
          have := hti
          simp at this
          exact this.symm
        subst hti'
        cases j with
        | zero =>
          have htj' : tj = readStep s e := by
            have := htj
            simp at this
            exact this.symm
          subst htj'
          rw [hout]
          exact ⟨fun h => ⟨h, h⟩, fun h => ⟨h, h⟩⟩
        | succ j' => simp at htj
      | succ i' => simp at hti

theorem readStep_writes_eq (s : RState) (e : MbedResult) :
    (readStep s e).writes =
      (if 0 < retOf e then s.writes ++ writeIdxs s.offset (dataOf e).length
       else s.writes) ++ [s.offset + (dataOf e).length] := by
  by_cases hpos : 0 < retOf e
  · simp [readStep, hpos]
  · simp [readStep, hpos, dataOf_eq_nil e hpos]

theorem scrub_offset_eq {s1 s2 : RState} (h : scrub s1 = scrub s2) :
    s1.offset = s2.offset := by
  have h' := congrArg RState.offset h
  exact h'

theorem scrub_received_eq {s1 s2 : RState} (h : scrub s1 = scrub s2) :
    s1.received = s2.received := by
  have h' := congrArg RState.received h
  exact h'

theorem scrub_got200_eq {s1 s2 : RState} (h : scrub s1 = scrub s2) :
    s1.got200 = s2.got200 := by
  have h' := congrArg RState.got200 h
  exact h'

theorem scrub_gothello_eq {s1 s2 : RState} (h : scrub s1 = scrub s2) :
    s1.gothello = s2.gothello := by
  have h' := congrArg RState.gothello h
  exact h'

theorem scrub_writes_eq {s1 s2 : RState} (h : scrub s1 = scrub s2) :
    s1.writes = s2.writes := by
  have h' := congrArg RState.writes h
  exact h'

theorem readStep_scrub (s1 s2 : RState) (e : MbedResult)
    (h1 : PreR s1) (h2 : PreR s2) (hsc : scrub s1 = scrub s2)
    (hb : (dataOf e).length ≤ RECV_BUFFER_SIZE - 1 - s1.offset) :
    scrub (readStep s1 e) = scrub (readStep s2 e) := by
  have hoff : s1.offset = s2.offset := scrub_offset_eq hsc
  have hrecv : s1.received = s2.received := scrub_received_eq hsc
  have h200 : s1.got200 = s2.got200 := scrub_got200_eq hsc
  have hhel : s1.gothello = s2.gothello := scrub_gothello_eq hsc
  have hwr : s1.writes = s2.writes := scrub_writes_eq hsc
  have hp1 := readStep_pre s1 e h1 hb
  have hp2 := readStep_pre s2 e h2 (by rw [← hoff]; exact hb)
  unfold scrub
  congr 1
  · rw [readStep_offset, readStep_offset, hoff]
  · rw [hp1.2.1, hp2.2.1, h200, hrecv]
  · rw [hp1.2.2, hp2.2.2, hhel, hrecv]
  · rw [readStep_received, readStep_received, hrecv]
  · rw [readStep_writes_eq, readStep_writes_eq, hwr, hoff]

theorem readLoop_scrub (evs : List MbedResult) : ∀ (s1 s2 : RState),
    PreR s1 → PreR s2 → scrub s1 = scrub s2 → recvBounded s1.offset evs = true →
    (readLoop s1 evs).calls = (readLoop s2 evs).calls ∧
    (readLoop s1 evs).states.map scrub = (readLoop s2 evs).states.map scrub ∧
    scrubOut (readLoop s1 evs).out = scrubOut (readLoop s2 evs).out := by
  induction evs with
  | nil =>
    intro s1 s2 _ _ hsc _
    refine ⟨rfl, rfl, ?_⟩
    simp [readLoop, scrubOut, hsc]
  | cons e es ih =>
    intro s1 s2 hp1 hp2 hsc hb
    obtain ⟨hb1, hb2⟩ := recvBounded_cons s1.offset e es hb
    have hoff : s1.offset = s2.offset := scrub_offset_eq hsc
    have hs1 := readStep_pre s1 e hp1 hb1
    have hs2 := readStep_pre s2 e hp2 (by rw [← hoff]; exact hb1)
    have hsc' : scrub (readStep s1 e) = scrub (readStep s2 e) :=
      readStep_scrub s1 s2 e hp1 hp2 hsc hb1
    have hflag1 : (readStep s1 e).got200 = (readStep s2 e).got200 :=
      scrub_got200_eq hsc'
    have hflag2 : (readStep s1 e).gothello = (readStep s2 e).gothello :=
      scrub_gothello_eq hsc'
    have hcr : continueRead (readStep s1 e) (retOf e) =
        continueRead (readStep s2 e) (retOf e) := by
      unfold continueRead
      rw [hflag1, hflag2]
    have hbt : recvBounded (readStep s1 e).offset es = true := by
      rw [readStep_offset]; exact hb2
    by_cases hc : continueRead (readStep s1 e) (retOf e) = true
    · rw [readLoop_cons_continue s1 e es hc,
        readLoop_cons_continue s2 e es (by rw [← hcr]; exact hc)]
      obtain ⟨ic, is, io⟩ := ih (readStep s1 e) (readStep s2 e)
        (goodR_preR _ hs1.1) (goodR_preR _ hs2.1) hsc' hbt
      dsimp only
      refine ⟨?_, ?_, io⟩
      · rw [hoff, ic]
      · rw [List.map_cons, List.map_cons, hsc', is]
    · rw [readLoop_cons_stop s1 e es hc,
        readLoop_cons_stop s2 e es (by rw [← hcr]; exact hc)]
      dsimp only
      refine ⟨by rw [hoff], by simp [hsc'], ?_⟩
      by_cases hr : retOf e < 0 <;> simp [scrubOut, hr, hsc']

/-! ### Write-loop lemmas -/

theorem posTotal_nonneg (evs : List Int) : 0 ≤ posTotal evs := by
  induction evs with
  | nil => simp [posTotal]
  | cons r rs ih =>
    simp only [posTotal]
    by_cases hr : 0 < r
    · rw [if_pos hr]; omega
    · rw [if_neg hr]; omega

theorem writeLoop_cons (off bpos : Nat) (r : Int) (rs : List Int) :
    writeLoop off bpos (r :: rs) =
      if (if 0 < r then off + r.toNat else off) < bpos ∧
         (0 < r ∨ r = MBEDTLS_ERR_SSL_WANT_READ ∨ r = MBEDTLS_ERR_SSL_WANT_WRITE) then
        ((off, bpos - off) ::
          (writeLoop (if 0 < r then off + r.toNat else off) bpos rs).1,
         (writeLoop (if 0 < r then off + r.toNat else off) bpos rs).2)
      else
        ([(off, bpos - off)],
         if r < 0 then WriteOutcome.failed r (if 0 < r then off + r.toNat else off)
         else WriteOutcome.done (if 0 < r then off + r.toNat else off)) := rfl

theorem writeLoop_calls_bound : ∀ (evs : List Int) (off bpos : Nat), off ≤ bpos →
    ∀ c ∈ (writeLoop off bpos evs).1, c.1 ≤ bpos ∧ c.2 = bpos - c.1 := by
  intro evs
  induction evs with
  | nil => intro off bpos h c hc; simp [writeLoop] at hc
  | cons r rs ih =>
    intro off bpos h c hc
    rw [writeLoop_cons] at hc
    by_cases hg : (if 0 < r then off + r.toNat else off) < bpos ∧
        (0 < r ∨ r = MBEDTLS_ERR_SSL_WANT_READ ∨ r = MBEDTLS_ERR_SSL_WANT_WRITE)
    · rw [if_pos hg] at hc
      dsimp only at hc
      rcases List.mem_cons.mp hc with rfl | hc
      · exact ⟨h, rfl⟩
      · exact ih _ bpos (le_of_lt hg.1) c hc
    · rw [if_neg hg] at hc
      dsimp only at hc
      rw [List.mem_singleton.mp hc]
      exact ⟨h, rfl⟩

theorem writeLoop_complete : ∀ (evs : List Int) (off bpos : Nat),
    allSendable evs = true → posTotal evs = (bpos : Int) - (off : Int) →
    off < bpos →
    (writeLoop off bpos evs).2 = WriteOutcome.done bpos ∧
    (∀ c ∈ (writeLoop off bpos evs).1, c.1 ≤ bpos ∧ c.2 = bpos - c.1) ∧
    (∀ (k : Nat) (ck : Nat × Nat), (writeLoop off bpos evs).1.get? k = some ck →
       ck.1 = off + (posTotal (evs.take k)).toNat) := by
  intro evs
  induction evs with
  | nil =>
    intro off bpos hs hp hb
    exfalso
    simp [posTotal] at hp
    omega
  | cons r rs ih =>
    intro off bpos hs hp hb
    simp only [allSendable, Bool.and_eq_true, Bool.or_eq_true,
      decide_eq_true_eq] at hs
    obtain ⟨hr, hs'⟩ := hs
    simp only [posTotal] at hp
    by_cases hpos : 0 < r
    · rw [if_pos hpos] at hp
      have hcast : ((off + r.toNat : Nat) : Int) = (off : Int) + r := by
        push_cast [Int.toNat_of_nonneg (le_of_lt hpos)]
        ring
      have hp' : posTotal rs = (bpos : Int) - ((off + r.toNat : Nat) : Int) := by
        rw [hcast]
        omega
      have hnn := posTotal_nonneg rs
      have hle : off + r.toNat ≤ bpos := by
        rw [hp'] at hnn
        omega
      by_cases hlt : off + r.toNat < bpos
      · have hg : (if 0 < r then off + r.toNat else off) < bpos ∧
            (0 < r ∨ r = MBEDTLS_ERR_SSL_WANT_READ ∨ r = MBEDTLS_ERR_SSL_WANT_WRITE) := by
          rw [if_pos hpos]
          exact ⟨hlt, Or.inl hpos⟩
        rw [writeLoop_cons, if_pos hg]
        dsimp only
        rw [if_pos hpos]
        obtain ⟨ihd, ihc, ihk⟩ := ih (off + r.toNat) bpos hs' hp' hlt
        refine ⟨ihd, ?_, ?_⟩
        · intro c hc
          rcases List.mem_cons.mp hc with rfl | hc
          · exact ⟨le_of_lt hb, rfl⟩
          · exact ihc c hc
        · intro k ck hck
          cases k with
          | zero =>
            simp only [List.get?] at hck
            cases hck
            simp [posTotal]
          | succ k' =>
            simp only [List.get?] at hck
            have := ihk k' ck hck
            rw [List.take_succ_cons]
            simp only [posTotal, if_pos hpos]
            rw [this]
            have hnt := posTotal_nonneg (rs.take k')
            rw [Int.toNat_add (le_of_lt hpos) hnt]
            omega
      · have hoffb : off + r.toNat = bpos := by omega
        have hg : ¬ ((if 0 < r then off + r.toNat else off) < bpos ∧
            (0 < r ∨ r = MBEDTLS_ERR_SSL_WANT_READ ∨ r = MBEDTLS_ERR_SSL_WANT_WRITE)) := by
          rw [if_pos hpos]
          intro hcon
          exact hlt hcon.1
        rw [writeLoop_cons, if_neg hg]
        dsimp only
        have hnneg : ¬ r < 0 := by omega
        rw [if_neg hnneg, if_pos hpos, hoffb]
        refine ⟨rfl, ?_, ?_⟩
        · intro c hc
          rw [List.mem_singleton.mp hc]
          exact ⟨le_of_lt hb, rfl⟩
        · intro k ck hck
          cases k with
          | zero =>
            simp only [List.get?] at hck
            cases hck
            simp [posTotal]
          | succ k' => simp at hck
    · have hwant : r = MBEDTLS_ERR_SSL_WANT_READ ∨ r = MBEDTLS_ERR_SSL_WANT_WRITE := by
        rcases hr with (hr | hr) | hr
        · exact absurd hr hpos
        · exact Or.inl hr
        · exact Or.inr hr
      rw [if_neg hpos] at hp
      have hp' : posTotal rs = (bpos : Int) - (off : Int) := by omega
      have hg : (if 0 < r then off + r.toNat else off) < bpos ∧
          (0 < r ∨ r = MBEDTLS_ERR_SSL_WANT_READ ∨ r = MBEDTLS_ERR_SSL_WANT_WRITE) := by
        rw [if_neg hpos]
        exact ⟨hb, Or.inr hwant⟩
      rw [writeLoop_cons, if_pos hg]
      dsimp only
      rw [if_neg hpos]
      obtain ⟨ihd, ihc, ihk⟩ := ih off bpos hs' hp' hb
      refine ⟨ihd, ?_, ?_⟩
      · intro c hc
        rcases List.mem_cons.mp hc with rfl | hc
        · exact ⟨le_of_lt hb, rfl⟩
        · exact ihc c hc
      · intro k ck hck
        cases k with
        | zero =>
          simp only [List.get?] at hck
          cases hck
          simp [posTotal]
        | succ k' =>
          simp only [List.get?] at hck
          have := ihk k' ck hck
          rw [List.take_succ_cons]
          simp only [posTotal, if_neg hpos]
          rw [this]
          omega

theorem writeLoop_calls_head (off bpos : Nat) (r : Int) (rs : List Int) :
    ∃ t, (writeLoop off bpos (r :: rs)).1 = (off, bpos - off) :: t := by
  rw [writeLoop_cons]
  by_cases hg : (if 0 < r then off + r.toNat else off) < bpos ∧
      (0 < r ∨ r = MBEDTLS_ERR_SSL_WANT_READ ∨ r = MBEDTLS_ERR_SSL_WANT_WRITE)
  · rw [if_pos hg]
    exact ⟨_, rfl⟩
  · rw [if_neg hg]
    exact ⟨[], rfl⟩

/-! ### Handshake-loop and startTest lemmas -/

theorem hsLoop_cons (r : Int) (rs : List Int) :
    hsLoop (r :: rs) =
      if r ≠ 0 ∧ (r = MBEDTLS_ERR_SSL_WANT_READ ∨ r = MBEDTLS_ERR_SSL_WANT_WRITE)
      then (Action.hs :: (hsLoop rs).1, (hsLoop rs).2)
      else ([Action.hs], some r) := rfl

theorem hsLoop_actions (hsE : List Int) : ∀ a ∈ (hsLoop hsE).1, a = Action.hs := by
  induction hsE with
  | nil => intro a ha; simp [hsLoop] at ha
  | cons r rs ih =>
    intro a ha
    rw [hsLoop_cons] at ha
    by_cases hg : r ≠ 0 ∧
        (r = MBEDTLS_ERR_SSL_WANT_READ ∨ r = MBEDTLS_ERR_SSL_WANT_WRITE)
    · rw [if_pos hg] at ha
      dsimp only at ha
      rcases List.mem_cons.mp ha with rfl | ha
      · rfl
      · exact ih a ha
    · rw [if_neg hg] at ha
      dsimp only at ha
      exact List.mem_singleton.mp ha

theorem hsLoop_replicate (n : Nat) :
    hsLoop (List.replicate n MBEDTLS_ERR_SSL_WANT_READ) =
      (List.replicate n Action.hs, none) := by
  induction n with
  | zero => rfl
  | succ n ih =>
    rw [List.replicate_succ, hsLoop_cons,
      if_pos ⟨by decide, Or.inl rfl⟩, ih, List.replicate_succ]

theorem startTest_hsStarved (buf0 path : List Nat) (hsE wrE : List Int)
    (rdE : List MbedResult) (as : List Action) (h : hsLoop hsE = (as, none)) :
    startTest buf0 path hsE wrE rdE = (as, TestResult.hsStarved) := by
  unfold startTest
  rw [h]

theorem startTest_hsFailed (buf0 path : List Nat) (hsE wrE : List Int)
    (rdE : List MbedResult) (as : List Action) (r : Int)
    (h : hsLoop hsE = (as, some r)) (hr : r < 0) :
    startTest buf0 path hsE wrE rdE =
      (as ++ [Action.close], TestResult.hsFailed r) := by
  unfold startTest
  rw [h]
  simp [hr]

theorem startTest_established (buf0 path : List Nat) (hsE wrE : List Int)
    (rdE : List MbedResult) (as : List Action) (r : Int)
    (h : hsLoop hsE = (as, some r)) (hr : 0 ≤ r) :
    startTest buf0 path hsE wrE rdE =
      (as ++ (afterHandshake (buf0.set (RECV_BUFFER_SIZE - 1) 0) path wrE rdE).1,
       (afterHandshake (buf0.set (RECV_BUFFER_SIZE - 1) 0) path wrE rdE).2) := by
  unfold startTest
  rw [h]
  have hnr : ¬ r < 0 := by omega
  simp [hnr]

theorem afterHandshake_actions (buf0 path : List Nat) (wrE : List Int)
    (rdE : List MbedResult) :
    ∃ Y, (afterHandshake buf0 path wrE rdE).1 =
      wrCallActions (writeLoop 0 (snprintfRet (renderRequest path)) wrE).1 ++ Y := by
  rcases hW : writeLoop 0 (snprintfRet (renderRequest path)) wrE with ⟨ws, out⟩
  simp only [afterHandshake]
  rw [hW]
  cases out with
  | starved off => exact ⟨[], by simp⟩
  | failed r o => exact ⟨[Action.close], rfl⟩
  | done o =>
    cases hR : (readLoop (initR (snprintfWrite buf0 (RECV_BUFFER_SIZE - 1)
        (renderRequest path))) rdE).out with
    | starved sx =>
      refine ⟨rdCallActions (readLoop (initR (snprintfWrite buf0
        (RECV_BUFFER_SIZE - 1) (renderRequest path))) rdE).calls, ?_⟩
      rfl
    | fatalExit rx sx =>
      refine ⟨rdCallActions (readLoop (initR (snprintfWrite buf0
        (RECV_BUFFER_SIZE - 1) (renderRequest path))) rdE).calls ++ [Action.close], ?_⟩
      show wrCallActions ws ++ rdCallActions _ ++ [Action.close] = _
      rw [List.append_assoc]
    | finished sx =>
      refine ⟨rdCallActions (readLoop (initR (snprintfWrite buf0
        (RECV_BUFFER_SIZE - 1) (renderRequest path))) rdE).calls ++ [Action.close], ?_⟩
      show wrCallActions ws ++ rdCallActions _ ++ [Action.close] = _
      rw [List.append_assoc]

theorem afterHandshake_first_write (buf0 path : List Nat) (w : Int)
    (wtl : List Int) (rdE : List MbedResult) :
    ∃ restA, (afterHandshake buf0 path (w :: wtl) rdE).1 =
      Action.wr 0 (snprintfRet (renderRequest path)) :: restA := by
  obtain ⟨Y, hY⟩ := afterHandshake_actions buf0 path (w :: wtl) rdE
  obtain ⟨t, ht⟩ := writeLoop_calls_head 0 (snprintfRet (renderRequest path)) w wtl
  rw [hY, ht]
  dsimp only [wrCallActions]
  rw [List.map_cons, List.cons_append, Nat.sub_zero]
  exact ⟨_, rfl⟩

/-! ### Shared entry lemmas for the read loop -/

theorem goodR_conclusions (t : RState) (hg : GoodR t) (hw : writesOk t) :
    t.offset ≤ RECV_BUFFER_SIZE - 1 ∧ t.buffer.get? t.offset = some 0 ∧
    t.buffer.length = RECV_BUFFER_SIZE ∧ ∀ i ∈ t.writes, i < RECV_BUFFER_SIZE :=
  ⟨(goodR_preR t hg).2.2.2.2.2, hg.2.2.2.1, hg.1, hw⟩

theorem readLoop_init_inv (b : List Nat) (hb : b.length = RECV_BUFFER_SIZE)
    (evs : List MbedResult) (hev : recvBounded 0 evs = true) :
    (∀ t ∈ (readLoop (initR b) evs).states, GoodR t ∧ writesOk t) ∧
    (∀ sf, (readLoop (initR b) evs).out = ReadOutcome.finished sf →
      GoodR sf ∧ writesOk sf) := by
  cases evs with
  | nil =>
    constructor
    · intro t ht; simp [readLoop] at ht
    · intro sf hf; simp [readLoop] at hf
  | cons e es =>
    obtain ⟨hb1, hb2⟩ := recvBounded_cons 0 e es hev
    have hb1' : (dataOf e).length ≤ RECV_BUFFER_SIZE - 1 - (initR b).offset := hb1
    have hg' : GoodR (readStep (initR b) e) :=
      (readStep_pre (initR b) e (initR_preR b hb) hb1').1
    have hw' : writesOk (readStep (initR b) e) := by
      apply readStep_writesOk
      · intro i hi; simp [initR] at hi
      · show (initR b).offset + (dataOf e).length < RECV_BUFFER_SIZE
        have h0 : (initR b).offset = 0 := rfl
        rw [h0]
        simp only [RECV_BUFFER_SIZE] at hb1 ⊢
        omega
    have hbt : recvBounded (readStep (initR b) e).offset es = true := by
      rw [readStep_offset]
      exact hb2
    obtain ⟨hm, ho1, ho2⟩ := readLoop_inv es (readStep (initR b) e) hg' hw' hbt
    by_cases hc : continueRead (readStep (initR b) e) (retOf e) = true
    · rw [readLoop_cons_continue _ e es hc]
      dsimp only
      constructor
      · intro t ht
        rcases List.mem_cons.mp ht with rfl | ht
        · exact ⟨hg', hw'⟩
        · exact hm t ht
      · intro sf hf
        have hout : outState (readLoop (readStep (initR b) e) es).out = sf := by
          rw [hf]
          rfl
        rw [← hout]
        exact ⟨ho1, ho2⟩
    · rw [readLoop_cons_stop _ e es hc]
      dsimp only
      constructor
      · intro t ht
        rcases List.mem_singleton.mp ht with rfl
        exact ⟨hg', hw'⟩
      · intro sf hf
        by_cases hr : retOf e < 0
        · rw [if_pos hr] at hf
          simp at hf
        · rw [if_neg hr] at hf
          injection hf with hf'
          rw [← hf']
          exact ⟨hg', hw'⟩

/-! ### Claim theorems -/

/-- C1, counterexample: the claim "for every path string ... the subsequent
write loop never reads or transmits bytes at offsets past the end of the
rendered (truncated) region" is false.  For a 600-byte path the render is
truncated to `RECV_BUFFER_SIZE - 2 = 598` content bytes, but `_bpos` receives
`snprintf`'s untruncated return value (633), so the very first
`mbedtls_ssl_write` call covers offsets `[0, 633)`, past the truncated
region (and past the buffer itself). -/
theorem C1_counterexample :
    RECV_BUFFER_SIZE - 2 < (renderRequest (List.replicate 600 97)).length ∧
    ∃ c ∈ (writeLoop 0 (snprintfRet (renderRequest (List.replicate 600 97)))
        [((renderRequest (List.replicate 600 97)).length : Int)]).1,
      min (renderRequest (List.replicate 600 97)).length (RECV_BUFFER_SIZE - 2) <
        c.1 + c.2 := by
  decide

/-- C1 (amended): the render itself is truncated, never overflowed — the
`snprintf` result keeps the buffer at its capacity and every index it writes
is in bounds; and whenever the full request fits in `capacity − 2` bytes
(so no truncation occurs), every `mbedtls_ssl_write` call stays within the
rendered region `[0, request length)`. -/
theorem C1_render_bounded (path buf0 : List Nat)
    (h0 : buf0.length = RECV_BUFFER_SIZE) :
    (snprintfWrite buf0 (RECV_BUFFER_SIZE - 1) (renderRequest path)).length =
      RECV_BUFFER_SIZE ∧
    (∀ i ∈ snprintfIdxs (RECV_BUFFER_SIZE - 1) (renderRequest path),
      i < RECV_BUFFER_SIZE) ∧
    ((renderRequest path).length ≤ RECV_BUFFER_SIZE - 2 →
      ∀ (wrE : List Int),
        ∀ c ∈ (writeLoop 0 (snprintfRet (renderRequest path)) wrE).1,
          c.1 + c.2 ≤ (renderRequest path).length) := by
  refine ⟨?_, ?_, ?_⟩
  · unfold snprintfWrite
    rw [List.length_set, writeBytes_length, h0]
  · intro i hi
    unfold snprintfIdxs at hi
    rcases List.mem_append.mp hi with hi | hi
    · have := writeIdxs_mem hi
      simp only [RECV_BUFFER_SIZE] at this ⊢
      omega
    · rw [List.mem_singleton.mp hi]
      simp only [RECV_BUFFER_SIZE]
      omega
  · intro _ wrE c hc
    have hcb := writeLoop_calls_bound wrE 0 (snprintfRet (renderRequest path))
      (Nat.zero_le _) c hc
    have hsr : snprintfRet (renderRequest path) = (renderRequest path).length := rfl
    rw [hsr] at hcb
    omega

theorem C1_witness :
    ((0, 71) : Nat × Nat).1 + ((0, 71) : Nat × Nat).2 ≤
      (renderRequest HTTPS_PATH).length :=
  (C1_render_bounded HTTPS_PATH (List.replicate 600 0) (by decide)).2.2
    (by decide) [(71 : Int)] (0, 71) (by decide)

/-- C2: for a request of length `L > 0` and any result sequence of positive
partial counts summing to `L` interleaved with would-block sentinels, the
write loop falls through on the success path with sent-offset `L`; every
`mbedtls_ssl_write` call receives the slice starting at the current
sent-offset (the sum of the positive results consumed so far) with exactly
the remaining `L − offset` bytes; the loop returns only once fully sent. -/
theorem C2_partial_write (L : Nat) (evs : List Int)
    (hs : allSendable evs = true) (hp : posTotal evs = (L : Int)) (hL : 0 < L) :
    (writeLoop 0 L evs).2 = WriteOutcome.done L ∧
    (∀ c ∈ (writeLoop 0 L evs).1, c.1 ≤ L ∧ c.2 = L - c.1) ∧
    (∀ (k : Nat) (ck : Nat × Nat), (writeLoop 0 L evs).1.get? k = some ck →
       ck.1 = (posTotal (evs.take k)).toNat) := by
  obtain ⟨h1, h2, h3⟩ := writeLoop_complete evs 0 L hs (by omega) hL
  refine ⟨h1, h2, ?_⟩
  intro k ck hck
  have := h3 k ck hck
  omega

theorem C2_witness :
    (writeLoop 0 10 [MBEDTLS_ERR_SSL_WANT_READ, 4,
      MBEDTLS_ERR_SSL_WANT_WRITE, 6]).2 = WriteOutcome.done 10 :=
  (C2_partial_write 10 [MBEDTLS_ERR_SSL_WANT_READ, 4,
    MBEDTLS_ERR_SSL_WANT_WRITE, 6] (by decide) (by decide) (by decide)).1

/-- C3: for any bounded sequence of read results, after every iteration of
the read loop the fill cursor is at most `capacity − 1`, the byte at the
fill cursor is the null terminator, the buffer keeps its capacity, and
every buffer index the loop has stored to is in bounds. -/
theorem C3_buffer_bounds (b : List Nat) (hb : b.length = RECV_BUFFER_SIZE)
    (evs : List MbedResult) (hev : recvBounded 0 evs = true) :
    ∀ t ∈ (readLoop (initR b) evs).states,
      t.offset ≤ RECV_BUFFER_SIZE - 1 ∧
      t.buffer.get? t.offset = some 0 ∧
      t.buffer.length = RECV_BUFFER_SIZE ∧
      ∀ i ∈ t.writes, i < RECV_BUFFER_SIZE := by
  intro t ht
  obtain ⟨hg, hw⟩ := (readLoop_init_inv b hb evs hev).1 t ht
  exact goodR_conclusions t hg hw

theorem C3_witness :
    (readStep (initR (List.replicate 600 9)) (MbedResult.ok [104, 105])).offset ≤
      RECV_BUFFER_SIZE - 1 :=
  (C3_buffer_bounds (List.replicate 600 9) (by decide)
    [MbedResult.ok [104, 105]] (by decide) _ (by decide)).1

/-- C5: when the read loop exits on the success path, each status flag
equals the scan result — `_got200` (resp. `_gothello`) is true exactly when
`"200 OK"` (resp. `"Hello world!"`) occurs in the accumulated
null-terminated buffer contents (equivalently, in the received bytes up to
the first null); and the loop stops on the success path as soon as an
iteration leaves both flags set. -/
theorem C5_success_criteria (b : List Nat) (hb : b.length = RECV_BUFFER_SIZE)
    (evs : List MbedResult) (hev : recvBounded 0 evs = true) (sf : RState)
    (hf : (readLoop (initR b) evs).out = ReadOutcome.finished sf) :
    (sf.got200 = true ↔ containsB (cstr sf.buffer) HTTPS_OK_STR = true) ∧
    (sf.gothello = true ↔ containsB (cstr sf.buffer) HTTPS_HELLO_STR = true) ∧
    sf.got200 = containsB (cstr sf.received) HTTPS_OK_STR ∧
    sf.gothello = containsB (cstr sf.received) HTTPS_HELLO_STR ∧
    (∀ (s : RState) (e : MbedResult) (es : List MbedResult),
      (readStep s e).got200 = true → (readStep s e).gothello = true →
      0 ≤ retOf e →
      readLoop s (e :: es) =
        { calls := [(s.offset, RECV_BUFFER_SIZE - s.offset - 1)],
          states := [readStep s e],
          out := ReadOutcome.finished (readStep s e) }) := by
  obtain ⟨hg, _⟩ := (readLoop_init_inv b hb evs hev).2 sf hf
  have hdec := buffer_decomp sf.buffer sf.offset sf.received hg.2.2.1 hg.2.2.2.1
  have hcb : cstr sf.buffer = cstr sf.received := by
    conv_lhs => rw [hdec]
    exact cstr_append_zero _ _
  refine ⟨?_, ?_, hg.2.2.2.2.1, hg.2.2.2.2.2, ?_⟩
  · rw [hg.2.2.2.2.1, hcb]
  · rw [hg.2.2.2.2.2, hcb]
  · intro s e es h2 hh hr
    have hc : ¬ continueRead (readStep s e) (retOf e) = true := by
      unfold continueRead
      rw [h2, hh]
      simp
    rw [readLoop_cons_stop s e es hc, if_neg (by omega : ¬ retOf e < 0)]

theorem C5_witness :
    (readStep (initR (List.replicate 600 0))
        (MbedResult.ok (HTTPS_OK_STR ++ HTTPS_HELLO_STR))).got200 =
      containsB (cstr (readStep (initR (List.replicate 600 0))
        (MbedResult.ok (HTTPS_OK_STR ++ HTTPS_HELLO_STR))).received)
        HTTPS_OK_STR :=
  (C5_success_criteria (List.replicate 600 0) (by decide)
    [MbedResult.ok (HTTPS_OK_STR ++ HTTPS_HELLO_STR)] (by decide) _
    (by decide)).2.2.1

/-- C6: a zero-byte no-error read result (clean peer close) terminates the
read loop immediately — regardless of which markers have been found — on
the non-error path (`finished`, not `fatalExit`), with no data added, and
the reported flags are exactly the scan results on the bytes accumulated so
far.  The hypothesis `PreR s` holds both at the loop's real entry state
(`initR` of the snprintf-rendered buffer, by `initR_preR`) and after every
iteration (by `GoodR` and `goodR_preR`), so the statement covers a clean
close on the first read call as well as on any later one. -/
theorem C6_clean_close (s : RState) (es : List MbedResult) (hg : PreR s) :
    readLoop s (MbedResult.ok [] :: es) =
      { calls := [(s.offset, RECV_BUFFER_SIZE - s.offset - 1)],
        states := [readStep s (MbedResult.ok [])],
        out := ReadOutcome.finished (readStep s (MbedResult.ok [])) } ∧
    (readStep s (MbedResult.ok [])).received = s.received ∧
    (readStep s (MbedResult.ok [])).got200 =
      containsB (cstr s.received) HTTPS_OK_STR ∧
    (readStep s (MbedResult.ok [])).gothello =
      containsB (cstr s.received) HTTPS_HELLO_STR := by
  have hb : (dataOf (MbedResult.ok [])).length ≤ RECV_BUFFER_SIZE - 1 - s.offset := by
    show ([] : List Nat).length ≤ RECV_BUFFER_SIZE - 1 - s.offset
    simp
  have hp := readStep_pre s (MbedResult.ok []) hg hb
  have hg' : GoodR (readStep s (MbedResult.ok [])) := hp.1
  have h0 : retOf (MbedResult.ok []) = 0 := by simp [retOf]
  have hrecv : (readStep s (MbedResult.ok [])).received = s.received := by
    rw [readStep_received]
    simp [dataOf]
  refine ⟨?_, hrecv, ?_, ?_⟩
  · have hc : ¬ continueRead (readStep s (MbedResult.ok []))
        (retOf (MbedResult.ok [])) = true := by
      unfold continueRead
      rw [h0]
      have hY : (decide ((0 : Int) < 0) ||
          decide ((0 : Int) = MBEDTLS_ERR_SSL_WANT_READ) ||
          decide ((0 : Int) = MBEDTLS_ERR_SSL_WANT_WRITE)) = false := by decide
      rw [hY, Bool.and_false]
      simp
    rw [readLoop_cons_stop s (MbedResult.ok []) es hc, h0,
      if_neg (by decide : ¬ (0 : Int) < 0)]
  · have hflag := hg'.2.2.2.2.1
    rw [hrecv] at hflag
    exact hflag
  · have hflag := hg'.2.2.2.2.2
    rw [hrecv] at hflag
    exact hflag

theorem C6_witness :
    (readStep (initR (snprintfWrite (List.replicate 600 71)
        (RECV_BUFFER_SIZE - 1) (renderRequest HTTPS_PATH)))
      (MbedResult.ok [])).received = ([] : List Nat) :=
  (C6_clean_close (initR (snprintfWrite (List.replicate 600 71)
      (RECV_BUFFER_SIZE - 1) (renderRequest HTTPS_PATH))) []
    (initR_preR _ (by decide))).2.1

/-- C7: the seed call `mbedtls_ctr_drbg_seed(..., DRBG_PERS, sizeof (DRBG_PERS))`
passes `sizeof` of the pointer variable (4 bytes on the 32-bit mbed target),
which is strictly less than the 25 characters of the personalization string
— the seed never receives the string in its entirety. -/
theorem C7_seed_length_bug :
    seedPersLen < DRBG_PERS.length ∧ seedPersLen = 4 ∧ DRBG_PERS.length = 25 := by
  decide

/-- C8: within one run of the read loop, the found-state of each marker is
monotone non-decreasing: if a flag is true at iteration `i`, it is true at
every later recorded iteration `j ≥ i` and in the state the loop ends in
(the final reported status). -/
theorem C8_marker_monotone (s : RState) (evs : List MbedResult) (i j : Nat)
    (hij : i ≤ j) (ti tj : RState)
    (hti : (readLoop s evs).states.get? i = some ti)
    (htj : (readLoop s evs).states.get? j = some tj) :
    (ti.got200 = true → tj.got200 = true ∧
      (outState (readLoop s evs).out).got200 = true) ∧
    (ti.gothello = true → tj.gothello = true ∧
      (outState (readLoop s evs).out).gothello = true) :=
  readLoop_get_mono evs s i j hij ti tj hti htj

theorem C8_witness :
    (outState (readLoop (initR (List.replicate 600 0))
      [MbedResult.ok HTTPS_OK_STR, MbedResult.ok HTTPS_HELLO_STR]).out).got200 =
      true :=
  ((C8_marker_monotone (initR (List.replicate 600 0))
      [MbedResult.ok HTTPS_OK_STR, MbedResult.ok HTTPS_HELLO_STR] 0 1
      (by decide)
      (readStep (initR (List.replicate 600 0)) (MbedResult.ok HTTPS_OK_STR))
      (readStep (readStep (initR (List.replicate 600 0))
        (MbedResult.ok HTTPS_OK_STR)) (MbedResult.ok HTTPS_HELLO_STR))
      (by decide) (by decide)).1 (by decide)).2

/-- C4: the handshake driver re-invokes `mbedtls_ssl_handshake` exactly when
the previous result was `WANT_READ` or `WANT_WRITE`; if the loop exits with
a negative result, `startTest` performs no write/read operation, closes the
socket, and returns (all prior actions being handshake calls); on a zero or
positive result it proceeds to the request-write phase, whose first action
is a write of the whole rendered request. -/
theorem C4_handshake_policy (r : Int) (rs hsE : List Int) (as : List Action)
    (ret : Int) (buf0 path : List Nat) (wrE : List Int) (rdE : List MbedResult)
    (w : Int) (wtl : List Int)
    (h : hsLoop hsE = (as, some ret)) :
    (hsLoop (r :: rs) =
      if r = MBEDTLS_ERR_SSL_WANT_READ ∨ r = MBEDTLS_ERR_SSL_WANT_WRITE
      then (Action.hs :: (hsLoop rs).1, (hsLoop rs).2)
      else ([Action.hs], some r)) ∧
    (∀ a ∈ as, a = Action.hs) ∧
    (ret < 0 → startTest buf0 path hsE wrE rdE =
      (as ++ [Action.close], TestResult.hsFailed ret)) ∧
    (0 ≤ ret → startTest buf0 path hsE wrE rdE =
      (as ++ (afterHandshake (buf0.set (RECV_BUFFER_SIZE - 1) 0) path wrE rdE).1,
       (afterHandshake (buf0.set (RECV_BUFFER_SIZE - 1) 0) path wrE rdE).2)) ∧
    (∃ restA,
      (afterHandshake (buf0.set (RECV_BUFFER_SIZE - 1) 0) path (w :: wtl) rdE).1 =
        Action.wr 0 (snprintfRet (renderRequest path)) :: restA) := by
  refine ⟨?_, ?_, ?_, ?_, ?_⟩
  · rw [hsLoop_cons]
    by_cases hw : r = MBEDTLS_ERR_SSL_WANT_READ ∨ r = MBEDTLS_ERR_SSL_WANT_WRITE
    · rw [if_pos hw, if_pos ⟨by rcases hw with rfl | rfl <;> decide, hw⟩]
    · rw [if_neg hw, if_neg (fun hcon => hw hcon.2)]
  · intro a ha
    have hall := hsLoop_actions hsE
    rw [h] at hall
    exact hall a ha
  · intro hr
    exact startTest_hsFailed buf0 path hsE wrE rdE as ret h hr
  · intro hr
    exact startTest_established buf0 path hsE wrE rdE as ret h hr
  · exact afterHandshake_first_write (buf0.set (RECV_BUFFER_SIZE - 1) 0) path w wtl rdE

theorem C4_witness :
    startTest [] [] [MBEDTLS_ERR_SSL_WANT_READ, -2] [] [] =
      ([Action.hs, Action.hs, Action.close], TestResult.hsFailed (-2)) := by
  have h := (C4_handshake_policy 0 [] [MBEDTLS_ERR_SSL_WANT_READ, -2]
    [Action.hs, Action.hs] (-2) [] [] [] [] 1 [] (by decide)).2.2.1 (by decide)
  simpa using h

/-- C9: no driver retry loop has a timeout or attempt limit: for every `n`,
if the transport answers every handshake call with `WANT_READ`, `startTest`
has made `n` handshake calls and is still inside the handshake loop — the
loop never exits, never closes the socket, and never reaches the
write/read phases. -/
theorem C9_unbounded_retry (n : Nat) (buf0 path : List Nat) (wrE : List Int)
    (rdE : List MbedResult) :
    startTest buf0 path (List.replicate n MBEDTLS_ERR_SSL_WANT_READ) wrE rdE =
      (List.replicate n Action.hs, TestResult.hsStarved) :=
  startTest_hsStarved buf0 path _ wrE rdE _ (hsLoop_replicate n)

/-- C10: the marker flags never observe leftover request bytes: two runs of
the read loop over the same result sequence but arbitrary different initial
buffer contents (e.g. with and without the rendered request) make identical
calls and agree on every observable component of every iteration state —
cursor, received bytes, written indices and both marker flags — and on the
outcome. -/
theorem C10_no_request_residue (b1 b2 : List Nat)
    (h1 : b1.length = RECV_BUFFER_SIZE) (h2 : b2.length = RECV_BUFFER_SIZE)
    (evs : List MbedResult) (hev : recvBounded 0 evs = true) :
    (readLoop (initR b1) evs).calls = (readLoop (initR b2) evs).calls ∧
    (readLoop (initR b1) evs).states.map scrub =
      (readLoop (initR b2) evs).states.map scrub ∧
    scrubOut (readLoop (initR b1) evs).out =
      scrubOut (readLoop (initR b2) evs).out :=
  readLoop_scrub evs (initR b1) (initR b2) (initR_preR b1 h1)
    (initR_preR b2 h2) rfl hev

theorem C10_witness :
    (readLoop (initR (List.replicate 600 71)) [MbedResult.ok [104]]).calls =
      (readLoop (initR (List.replicate 600 0)) [MbedResult.ok [104]]).calls :=
  (C10_no_request_residue (List.replicate 600 71) (List.replicate 600 0)
    (by decide) (by decide) [MbedResult.ok [104]] (by decide)).1

end HelloHTTPS
